import Mathlib

/-!
Shallow embedding of `btrfs-list.c` (subvolume listing: root index, name
resolution, path stitching) together with theorems about the claims of the
specification.

Modelling conventions:
- `u64` values are modelled as `Nat`; the only place where the 64-bit range
  matters is the build loop's `if (sk->min_objectid < (u64)-1)` check, which
  is modelled with `UMAX = 2^64 - 1`.
- The Linux rbtree is modelled as a plain binary search tree built with the
  exact comparison logic of `tree_insert`.  Rebalancing (`rb_insert_color`)
  performs rotations, which preserve both the binary-search-tree invariant
  and the in-order sequence of nodes, so it is omitted; every observable
  behaviour used by this program (`rb_first`/`rb_next`/`rb_last`/`rb_prev`
  traversal and the result of `tree_search`, which is characterised below
  purely in terms of the in-order sequence) is invariant under rotations.
- `rb_first`/`rb_next` traversal is the in-order sequence `inorder t`;
  `rb_last`/`rb_prev` traversal is `(inorder t).reverse`.
- The two external ioctls are oracles: `BTRFS_IOC_TREE_SEARCH` is modelled
  from a key-sorted list of backreference items filtered by the composite
  search-key lower bound (the kernel compares `(objectid, type, offset)`
  lexicographically against the min and max keys; the item type is the
  constant `BTRFS_ROOT_BACKREF_KEY` here and is dropped), and
  `BTRFS_IOC_INO_LOOKUP` is a function `Nat → Nat → Option String`, `none`
  meaning the ioctl fails and returns -1.
- `exit(1)` (out of memory, duplicate insert) is modelled as `Option.none`;
  loops whose C originals are `while(1)` take a fuel argument, `none`
  signalling that the fuel ran out before the loop exited.
-/

namespace BtrfsList

/-- Model of `struct root_info`: one entry per root found.  `path` is NULL
(`none`) until `lookup_ino_path` fills it in. -/
structure RootInfo where
  root_id : Nat
  ref_tree : Nat
  dir_id : Nat
  path : Option String
  name : String
deriving DecidableEq

/-- The composite key `(root_id, ref_tree)` under which a record is stored. -/
def key (r : RootInfo) : Nat × Nat := (r.root_id, r.ref_tree)

/-- Model of `comp_entry`: compares an entry against a `(root_id, ref_tree)`
key, `root_id` first, returning 1 when the entry is larger, -1 when smaller,
0 on equality. -/
def comp_entry (entry : RootInfo) (root_id ref_tree : Nat) : Int :=
  if entry.root_id > root_id then 1
  else if entry.root_id < root_id then -1
  else if entry.ref_tree > ref_tree then 1
  else if entry.ref_tree < ref_tree then -1
  else 0

/-- The binary tree of `root_info` nodes (`struct root_lookup`). -/
inductive Rbtree where
  | nil : Rbtree
  | node (left : Rbtree) (info : RootInfo) (right : Rbtree) : Rbtree
deriving DecidableEq

/-- In-order sequence of the tree, i.e. the order of the
`rb_first`/`rb_next` traversal.  Note that because `tree_insert` sends keys
for which `comp_entry` is negative (entry smaller than key) to the left
child, larger keys sit in the left subtree and the in-order sequence is
DESCENDING in the composite key. -/
def inorder : Rbtree → List RootInfo
  | .nil => []
  | .node l e r => inorder l ++ e :: inorder r

/-- Strict lexicographic order on composite keys. -/
def keyLt (a b : Nat × Nat) : Prop :=
  a.1 < b.1 ∨ (a.1 = b.1 ∧ a.2 < b.2)

instance (a b : Nat × Nat) : Decidable (keyLt a b) := by
  unfold keyLt; infer_instance

/-- The binary-search-tree invariant of the tree built by `tree_insert`:
every key in a left subtree is larger than the node's key, every key in a
right subtree smaller. -/
def SearchTree : Rbtree → Prop
  | .nil => True
  | .node l e r =>
    (∀ x ∈ inorder l, keyLt (key e) (key x)) ∧
    (∀ x ∈ inorder r, keyLt (key x) (key e)) ∧
    SearchTree l ∧ SearchTree r

instance decSearchTree : (t : Rbtree) → Decidable (SearchTree t)
  | .nil => .isTrue trivial
  | .node l e r =>
    have hl := decSearchTree l
    have hr := decSearchTree r
    show Decidable ((∀ x ∈ inorder l, keyLt (key e) (key x)) ∧
      (∀ x ∈ inorder r, keyLt (key x) (key e)) ∧
      SearchTree l ∧ SearchTree r) from inferInstance

/-- Model of `tree_insert`: descends with `comp_entry`, going left when the
entry compares smaller than the key and right when larger; on an exact key
match the existing entry is returned (second component) and the node is not
linked.  Returns the resulting tree and the already-present entry, if any
(`none` meaning the new node was linked, as the C returns NULL). -/
def tree_insert : Rbtree → Nat → Nat → RootInfo → Rbtree × Option RootInfo
  | .nil, _, _, nd => (.node .nil nd .nil, none)
  | .node l e r, root_id, ref_tree, nd =>
    let comp := comp_entry e root_id ref_tree
    if comp < 0 then
      let p := tree_insert l root_id ref_tree nd
      (.node p.1 e r, p.2)
    else if comp > 0 then
      let p := tree_insert r root_id ref_tree nd
      (.node l e p.1, p.2)
    else (.node l e r, some e)

/-- Fold of `tree_insert` over a sequence of records, each keyed by its own
fields, as `add_root` does.  On a duplicate the C process exits; the tree at
that moment is unchanged, so the fold simply keeps it. -/
def insert_all (ops : List RootInfo) : Rbtree :=
  ops.foldl (fun t nd => (tree_insert t nd.root_id nd.ref_tree nd).1) .nil

/-- The `rb_prev` walk at the end of `tree_search`: starting from a matching
node, step to the in-order predecessor while it still has the wanted
`root_id`; the argument lists the in-order predecessors nearest-first. -/
def walkPrev : List RootInfo → Nat → RootInfo → RootInfo
  | [], _, e => e
  | p :: rest, root_id, e =>
    if p.root_id = root_id then walkPrev rest root_id p else e

/-- The descent of `tree_search`: compare only `root_id` (going left when
the entry's id is smaller, because larger keys are in the left subtree) and
stop at the first node with a matching id.  Alongside the node found, the
in-order predecessors of that node within the whole tree are returned so
that the `rb_prev` walk can be run on them. -/
def tree_descend : Rbtree → Nat → Option (List RootInfo × RootInfo)
  | .nil, _ => none
  | .node l e r, root_id =>
    if e.root_id < root_id then tree_descend l root_id
    else if root_id < e.root_id then
      (tree_descend r root_id).map (fun pr => (inorder l ++ e :: pr.1, pr.2))
    else some (inorder l, e)

/-- Model of `tree_search`: find a node with the given `root_id`, then walk
`rb_prev` while the predecessor still has that `root_id`, and return the
node reached (or NULL when no node matches). -/
def tree_search (t : Rbtree) (root_id : Nat) : Option RootInfo :=
  (tree_descend t root_id).map (fun pr => walkPrev pr.1.reverse root_id pr.2)

/-- Model of `add_root`: build a `root_info` with NULL `path` and insert it;
a duplicate key makes the C program print and `exit(1)`, modelled as
`none`. -/
def add_root (rl : Rbtree) (root_id ref_tree dir_id : Nat) (name : String) :
    Option Rbtree :=
  let ri : RootInfo := ⟨root_id, ref_tree, dir_id, none, name⟩
  let p := tree_insert rl root_id ref_tree ri
  match p.2 with
  | some _ => none
  | none => some p.1

/-- One backreference item as delivered by the `BTRFS_IOC_TREE_SEARCH`
ioctl: key `(objectid = subvolume id, type = BTRFS_ROOT_BACKREF_KEY,
offset = referring root id)` plus the root-ref payload (`dirid`, name). -/
structure EnumRec where
  objectid : Nat
  offset : Nat
  dirid : Nat
  name : String
deriving DecidableEq

/-- Model of one `BTRFS_IOC_TREE_SEARCH` call: `fs` is the root tree's
backreference items in ascending key order; the kernel returns, in key
order, the items whose key is lexicographically at least the min search key
(the max key of `list_subvols` is all-ones, so it filters nothing), capped
at a bounded batch size. -/
def search_batch (fs : List EnumRec) (minObj minOff cap : Nat) :
    List EnumRec :=
  (fs.filter (fun r =>
    decide (minObj < r.objectid ∨ (minObj = r.objectid ∧ minOff ≤ r.offset)))).take cap

/-- Maximum representable id, `(u64)-1`. -/
def UMAX : Nat := 2 ^ 64 - 1

/-- The per-item body of the build loop: `add_root` each item of the batch
and record its key in the search cursor (`sk->min_objectid`,
`sk->min_offset`; `sk->min_type` stays the constant backref type).  Returns
the tree and the final cursor, or `none` if `add_root` exited. -/
def process_batch (rl : Rbtree) (minObj minOff : Nat) :
    List EnumRec → Option (Rbtree × Nat × Nat)
  | [] => some (rl, minObj, minOff)
  | r :: rest =>
    match add_root rl r.objectid r.offset r.dirid r.name with
    | none => none
    | some rl' => process_batch rl' r.objectid r.offset rest

/-- The build loop of `list_subvols`: fetch a batch, stop when it is empty,
otherwise insert every item, then advance `min_objectid` one past the last
item seen (stopping if it is already at the maximum).  `fuel` bounds the
number of iterations of the C `while(1)`. -/
def build_loop (fs : List EnumRec) (cap : Nat) :
    Nat → Nat → Nat → Rbtree → Option Rbtree
  | 0, _, _, _ => none
  | fuel + 1, minObj, minOff, rl =>
    let batch := search_batch fs minObj minOff cap
    if batch.isEmpty then some rl
    else
      match process_batch rl minObj minOff batch with
      | none => none
      | some (rl', mO, mF) =>
        if mO < UMAX then build_loop fs cap fuel (mO + 1) mF rl'
        else some rl'

/-- The build phase of `list_subvols`, starting from the zeroed search key
and an empty tree. -/
def build_phase (fs : List EnumRec) (cap fuel : Nat) : Option Rbtree :=
  build_loop fs cap fuel 0 0 .nil

/-- Model of `lookup_ino_path`: no-op when `path` is set; otherwise call the
`BTRFS_IOC_INO_LOOKUP` oracle with `(ref_tree, dir_id)`.  On failure return
-1 (the ioctl's return value) with the record untouched; on success set
`path` to the returned fragment followed by the record's name, or to just
the name when the fragment is empty (the kernel already placed the trailing
separator in a non-empty fragment). -/
def lookup_ino_path (f : Nat → Nat → Option String) (ri : RootInfo) :
    Int × RootInfo :=
  match ri.path with
  | some _ => (0, ri)
  | none =>
    match f ri.ref_tree ri.dir_id with
    | none => (-1, ri)
    | some frag =>
      if frag ≠ "" then (0, { ri with path := some (frag ++ ri.name) })
      else (0, { ri with path := some ri.name })

/-- The resolve phase of `list_subvols`: visit every node in
`rb_first`/`rb_next` (in-order) order, calling `lookup_ino_path` on each,
and return the first negative return value as the error of the whole
listing. -/
def resolve_tree (f : Nat → Nat → Option String) :
    Rbtree → Except Int Rbtree
  | .nil => .ok .nil
  | .node l e r =>
    match resolve_tree f l with
    | .error er => .error er
    | .ok l' =>
      let res := lookup_ino_path f e
      if res.1 < 0 then .error res.1
      else
        match resolve_tree f r with
        | .error er => .error er
        | .ok r' => .ok (.node l' res.2 r')

/-- The loop body of `resolve_root`: starting from `found`, prepend
`found->path` to the accumulated path (`none` at the first iteration, where
the C takes `strdup(found->path)` with no separator), then stop when
`ref_tree` refers to the record itself or is absent from the tree, else
continue from the record `tree_search` found.  The tree is threaded through
to its result to record that the C body reads it but never writes it;
`none` means the fuel ran out or a record had a NULL `path` (on which the C
would crash in `strlen`). -/
def resolve_loop (rl : Rbtree) :
    Nat → RootInfo → Option String → Rbtree × Option (Nat × String)
  | 0, _, _ => (rl, none)
  | fuel + 1, found, acc =>
    match found.path with
    | none => (rl, none)
    | some p =>
      let full_path :=
        match acc with
        | none => p
        | some fp => p ++ "/" ++ fp
      if found.ref_tree = found.root_id then
        (rl, some (found.ref_tree, full_path))
      else
        match tree_search rl found.ref_tree with
        | none => (rl, some (found.ref_tree, full_path))
        | some f => resolve_loop rl fuel f (some full_path)

/-- Model of `resolve_root`: run the stitch loop from `ri` with an empty
accumulated path, producing the `(top level id, full path)` pair that the C
function prints. -/
def resolve_root (rl : Rbtree) (ri : RootInfo) (fuel : Nat) :
    Rbtree × Option (Nat × String) :=
  resolve_loop rl fuel ri none

/-- One step of the stitch phase per record of the given traversal order:
collect the `(root_id, top level id, full path)` triples printed by
`resolve_root`. -/
def stitch_go (rl : Rbtree) (fuel : Nat) :
    List RootInfo → Option (List (Nat × Nat × String))
  | [] => some []
  | ri :: rest =>
    match (resolve_root rl ri fuel).2 with
    | none => none
    | some (top, fp) =>
      match stitch_go rl fuel rest with
      | none => none
      | some out => some ((ri.root_id, top, fp) :: out)

/-- The stitch phase of `list_subvols`: `rb_last`/`rb_prev` traversal, i.e.
the reverse of the in-order sequence, reporting one triple per record. -/
def stitch_phase (rl : Rbtree) (fuel : Nat) :
    Option (List (Nat × Nat × String)) :=
  stitch_go rl fuel ((inorder rl).reverse)

/-- Model of `list_subvols`: build the index from the enumerator, resolve
every record's local path (returning the lookup error with nothing reported
if one fails), then stitch and report every record.  The outer `none`
covers the abnormal exits (`exit(1)`, fuel). -/
def list_subvols (fs : List EnumRec) (f : Nat → Nat → Option String)
    (cap bfuel sfuel : Nat) : Option (Int × List (Nat × Nat × String)) :=
  match build_phase fs cap bfuel with
  | none => none
  | some rl =>
    match resolve_tree f rl with
    | .error e => some (e, [])
    | .ok rl' =>
      match stitch_phase rl' sfuel with
      | none => none
      | some out => some (0, out)

/-- Two resolved self-referential records used as concrete inputs. -/
def w5 : RootInfo := ⟨5, 5, 0, some "a", "a"⟩

def w7 : RootInfo := ⟨7, 7, 0, some "b", "b"⟩

/-- Index holding `w5` and `w7`. -/
def exT1 : Rbtree := insert_all [w5, w7]

/-- Two records sharing `root_id` 256 with referring roots 5 and 7. -/
def ra : RootInfo := ⟨256, 5, 100, none, "a"⟩

def rb : RootInfo := ⟨256, 7, 100, none, "b"⟩

/-- Index holding the tied records `ra` and `rb`. -/
def exT2 : Rbtree := insert_all [ra, rb]

/-- A record with the same composite key as `ra` but different payload. -/
def raDup : RootInfo := ⟨256, 5, 999, none, "dup"⟩

/-- Three-level chain: `chA`'s parent is `chB`, `chB`'s parent is `chC`,
`chC` is self-referential. -/
def chA : RootInfo := ⟨257, 256, 256, some "nested", "nested"⟩

def chB : RootInfo := ⟨256, 5, 256, some "snap1", "snap1"⟩

def chC : RootInfo := ⟨5, 5, 0, some "toplevel", "toplevel"⟩

/-- Index holding exactly the chain `chA`, `chB`, `chC`. -/
def exT5 : Rbtree := insert_all [chC, chB, chA]

/-- A record whose referring root 4 is not in the (empty) index. -/
def w94 : RootInfo := ⟨9, 4, 0, some "x", "x"⟩

/-- Two backreference items sharing `objectid` 256; the batched build loop
loses the second one when the batch boundary falls between them. -/
def fsC3 : List EnumRec := [⟨256, 5, 300, "a"⟩, ⟨256, 7, 300, "b"⟩]

/-- One-record filesystem used for the error-propagation witness. -/
def fsC9 : List EnumRec := [⟨5, 5, 0, "top"⟩]

/-- An ino-lookup oracle that always fails. -/
def failLookup : Nat → Nat → Option String := fun _ _ => none

/-- A record with an unset path used for the name-resolution witness. -/
def w6 : RootInfo := ⟨256, 5, 256, none, "snap"⟩

/-- An ino-lookup oracle that always returns the empty fragment. -/
def emptyLookup : Nat → Nat → Option String := fun _ _ => some ""

lemma keyLt_irrefl (a : Nat × Nat) : ¬ keyLt a a := by
  simp [keyLt]

lemma keyLt_trans {a b c : Nat × Nat} (h1 : keyLt a b) (h2 : keyLt b c) :
    keyLt a c := by
  obtain ⟨a1, a2⟩ := a
  obtain ⟨b1, b2⟩ := b
  obtain ⟨c1, c2⟩ := c
  simp only [keyLt] at h1 h2 ⊢
  omega

lemma keyLt_asymm {a b : Nat × Nat} (h : keyLt a b) : ¬ keyLt b a :=
  fun h' => keyLt_irrefl a (keyLt_trans h h')

lemma comp_entry_neg_iff (e : RootInfo) (a b : Nat) :
    comp_entry e a b < 0 ↔ keyLt (key e) (a, b) := by
  simp only [comp_entry, key, keyLt]
  split_ifs <;> simp <;> omega

lemma comp_entry_pos_iff (e : RootInfo) (a b : Nat) :
    0 < comp_entry e a b ↔ keyLt (a, b) (key e) := by
  simp only [comp_entry, key, keyLt]
  split_ifs <;> simp <;> omega

lemma comp_entry_eq_zero_iff (e : RootInfo) (a b : Nat) :
    comp_entry e a b = 0 ↔ key e = (a, b) := by
  simp only [comp_entry, key, Prod.mk.injEq]
  split_ifs <;> simp <;> omega

/-- The in-order sequence of a search tree is strictly descending in the
composite key. -/
lemma sorted_inorder : ∀ (t : Rbtree), SearchTree t →
    (inorder t).Pairwise (fun a b => keyLt (key b) (key a)) := by
  intro t
  induction t with
  | nil => intro _; simp [inorder]
  | node l e r ihl ihr =>
    intro h
    simp only [SearchTree] at h
    obtain ⟨hbl, hbr, hl, hr⟩ := h
    simp only [inorder]
    rw [List.pairwise_append]
    refine ⟨ihl hl, ?_, ?_⟩
    · rw [List.pairwise_cons]
      exact ⟨hbr, ihr hr⟩
    · intro a ha b hb
      rcases List.mem_cons.mp hb with hb | hb
      · subst hb; exact hbl a ha
      · exact keyLt_trans (hbr b hb) (hbl a ha)

lemma walkPrev_append (xs ys : List RootInfo) (p : RootInfo) (rid : Nat)
    (hp : p.root_id ≠ rid) :
    ∀ e, walkPrev (xs ++ p :: ys) rid e = walkPrev xs rid e := by
  induction xs with
  | nil => intro e; simp [walkPrev, hp]
  | cons x xs ih =>
    intro e
    simp only [List.cons_append, walkPrev]
    split_ifs with h
    · exact ih x
    · rfl

/-- On an ascending list whose ids are all at least `rid`, the `rb_prev`
walk returns the last of the leading block of records with id `rid` (or the
starting record when the block is empty). -/
lemma walkPrev_eq_getLast (rid : Nat) :
    ∀ (M : List RootInfo) (e : RootInfo),
      (∀ x ∈ M, rid ≤ x.root_id) →
      M.Pairwise (fun a b => keyLt (key a) (key b)) →
      walkPrev M rid e =
        ((M.filter (fun x => x.root_id == rid)).getLast?).getD e := by
  intro M
  induction M with
  | nil => intro e _ _; simp [walkPrev]
  | cons p rest ih =>
    intro e hge hpw
    rw [List.pairwise_cons] at hpw
    by_cases hp : p.root_id = rid
    · rw [walkPrev, if_pos hp, List.filter_cons_of_pos (by simp [hp])]
      rw [ih p (fun x hx => hge x (List.mem_cons_of_mem p hx)) hpw.2]
      cases hfr : rest.filter (fun x => x.root_id == rid) with
      | nil => simp
      | cons a l =>
        rw [List.getLast?_cons_cons,
          List.getLast?_eq_getLast (a :: l) (by simp)]
        simp
    · rw [walkPrev, if_neg hp]
      have hnone : rest.filter (fun x => x.root_id == rid) = [] := by
        rw [List.filter_eq_nil_iff]
        intro x hx
        have h1 := hpw.1 x hx
        have h2 := hge p (List.mem_cons_self p rest)
        simp only [keyLt, key] at h1
        simp only [beq_iff_eq]
        omega
      rw [List.filter_cons_of_neg (by simp [hp]), hnone]
      simp

/-- Characterisation of `tree_search` on well-formed trees: it returns the
first record of the in-order sequence whose `root_id` matches, i.e. among
ties the record with the LARGEST `ref_tree` (the in-order sequence is
descending). -/
lemma tree_search_eq : ∀ (t : Rbtree), SearchTree t → ∀ rid : Nat,
    tree_search t rid =
      ((inorder t).filter (fun x => x.root_id == rid)).head? := by
  intro t
  induction t with
  | nil => intro _ rid; rfl
  | node l e r ihl ihr =>
    intro hst rid
    simp only [SearchTree] at hst
    obtain ⟨hbl, hbr, hl, hr⟩ := hst
    rcases lt_trichotomy e.root_id rid with hcase | hcase | hcase
    · -- the node's id is too small: descend left (larger keys)
      have hL : tree_search (.node l e r) rid = tree_search l rid := by
        simp only [tree_search, tree_descend]
        rw [if_pos hcase]
      have hre : (e :: inorder r).filter (fun x => x.root_id == rid) = [] := by
        rw [List.filter_eq_nil_iff]
        intro x hx
        simp only [beq_iff_eq]
        rcases List.mem_cons.mp hx with h | h
        · subst h; omega
        · have := hbr x h
          simp only [keyLt, key] at this
          omega
      rw [hL, ihl hl rid]
      simp only [inorder, List.filter_append, hre, List.append_nil]
    · -- exact id match at this node: run the rb_prev walk over the left part
      have hp : (e.root_id == rid) = true := by simp [hcase]
      have hgoal : tree_search (.node l e r) rid =
          some (walkPrev (inorder l).reverse rid e) := by
        simp only [tree_search, tree_descend]
        rw [if_neg (by omega), if_neg (by omega)]
        rfl
      rw [hgoal]
      have hW := walkPrev_eq_getLast rid (inorder l).reverse e
        (fun x hx => by
          have := hbl x (List.mem_reverse.mp hx)
          simp only [keyLt, key] at this
          omega)
        (List.pairwise_reverse.mpr (sorted_inorder l hl))
      rw [hW, List.filter_reverse, List.getLast?_reverse]
      simp only [inorder, List.filter_append]
      rw [List.filter_cons, if_pos hp]
      cases hfl : (inorder l).filter (fun x => x.root_id == rid) with
      | nil =>
        simp only [List.head?_nil, Option.getD_none, List.nil_append,
          List.head?_cons]
      | cons a tail =>
        simp only [List.head?_cons, Option.getD_some, List.cons_append]
    · -- the node's id is too large: descend right (smaller keys)
      have hfl : (inorder l).filter (fun x => x.root_id == rid) = [] := by
        rw [List.filter_eq_nil_iff]
        intro x hx
        have := hbl x hx
        simp only [keyLt, key] at this
        simp only [beq_iff_eq]
        omega
      have hpe : e.root_id ≠ rid := by omega
      have hRHS : ((inorder (.node l e r)).filter
          (fun x => x.root_id == rid)).head? =
          ((inorder r).filter (fun x => x.root_id == rid)).head? := by
        simp only [inorder, List.filter_append, hfl, List.nil_append,
          List.filter_cons]
        rw [if_neg (by simp [hpe])]
      rw [hRHS, ← ihr hr rid]
      simp only [tree_search, tree_descend]
      rw [if_neg (by omega), if_pos (by omega)]
      cases hd : tree_descend r rid with
      | none => rfl
      | some pr =>
        obtain ⟨pre, f⟩ := pr
        simp only [Option.map]
        have hrev : (inorder l ++ e :: pre).reverse =
            pre.reverse ++ e :: (inorder l).reverse := by
          rw [List.reverse_append, List.reverse_cons, List.append_assoc,
            List.singleton_append]
        rw [hrev, walkPrev_append pre.reverse (inorder l).reverse e rid
          (by omega)]

/-- When `tree_insert` reports an existing entry, the tree is unchanged,
the reported entry carries the searched key and was already present. -/
lemma insert_snd_some : ∀ (t : Rbtree) (a b : Nat) (nd x : RootInfo),
    (tree_insert t a b nd).2 = some x →
    (tree_insert t a b nd).1 = t ∧ key x = (a, b) ∧ x ∈ inorder t := by
  intro t
  induction t with
  | nil => intro a b nd x h; simp [tree_insert] at h
  | node l e r ihl ihr =>
    intro a b nd x h
    simp only [tree_insert] at h ⊢
    split_ifs at h ⊢ with h1 h2
    · obtain ⟨hu, hk, hm⟩ := ihl a b nd x h
      refine ⟨by rw [hu], hk, ?_⟩
      simp only [inorder, List.mem_append]
      exact Or.inl hm
    · obtain ⟨hu, hk, hm⟩ := ihr a b nd x h
      refine ⟨by rw [hu], hk, ?_⟩
      simp only [inorder, List.mem_append, List.mem_cons]
      exact Or.inr (Or.inr hm)
    · obtain rfl : e = x := by injection h
      refine ⟨rfl, ?_, ?_⟩
      · rw [← comp_entry_eq_zero_iff]; omega
      · simp [inorder]

/-- Every record of the tree produced by `tree_insert` was either already
present or is the inserted node. -/
lemma mem_insert : ∀ (t : Rbtree) (a b : Nat) (nd x : RootInfo),
    x ∈ inorder (tree_insert t a b nd).1 → x ∈ inorder t ∨ x = nd := by
  intro t
  induction t with
  | nil =>
    intro a b nd x h
    simp [tree_insert, inorder] at h
    exact Or.inr h
  | node l e r ihl ihr =>
    intro a b nd x h
    simp only [tree_insert] at h
    split_ifs at h with h1 h2
    · simp only [inorder, List.mem_append, List.mem_cons] at h ⊢
      rcases h with h | h
      · rcases ihl a b nd x h with h' | h'
        · exact Or.inl (Or.inl h')
        · exact Or.inr h'
      · exact Or.inl (Or.inr h)
    · simp only [inorder, List.mem_append, List.mem_cons] at h ⊢
      rcases h with h | h | h
      · exact Or.inl (Or.inl h)
      · exact Or.inl (Or.inr (Or.inl h))
      · rcases ihr a b nd x h with h' | h'
        · exact Or.inl (Or.inr (Or.inr h'))
        · exact Or.inr h'
    · exact Or.inl h

/-- `tree_insert` preserves the binary-search-tree invariant. -/
lemma searchTree_insert : ∀ (t : Rbtree) (nd : RootInfo), SearchTree t →
    SearchTree (tree_insert t nd.root_id nd.ref_tree nd).1 := by
  intro t
  induction t with
  | nil =>
    intro nd _
    simp [tree_insert, SearchTree, inorder]
  | node l e r ihl ihr =>
    intro nd hst
    simp only [SearchTree] at hst
    obtain ⟨hbl, hbr, hl, hr⟩ := hst
    simp only [tree_insert]
    split_ifs with h1 h2
    · have hlt : keyLt (key e) (key nd) := (comp_entry_neg_iff e _ _).mp h1
      simp only [SearchTree]
      refine ⟨?_, hbr, ihl nd hl, hr⟩
      intro x hx
      rcases mem_insert l _ _ nd x hx with h | h
      · exact hbl x h
      · subst h; exact hlt
    · have hlt : keyLt (key nd) (key e) := (comp_entry_pos_iff e _ _).mp h2
      simp only [SearchTree]
      refine ⟨hbl, ?_, hl, ihr nd hr⟩
      intro x hx
      rcases mem_insert r _ _ nd x hx with h | h
      · exact hbr x h
      · subst h; exact hlt
    · exact ⟨hbl, hbr, hl, hr⟩

/-- The tree built by any sequence of insertions is a search tree. -/
lemma searchTree_insert_all (ops : List RootInfo) :
    SearchTree (insert_all ops) := by
  have h : ∀ (l : List RootInfo) (t : Rbtree), SearchTree t →
      SearchTree (l.foldl
        (fun t nd => (tree_insert t nd.root_id nd.ref_tree nd).1) t) := by
    intro l
    induction l with
    | nil => intro t ht; exact ht
    | cons nd l ih =>
      intro t ht
      simp only [List.foldl_cons]
      exact ih _ (searchTree_insert t nd ht)
  exact h ops .nil trivial

/-- If some record with the searched key is present in a search tree,
`tree_insert` detects the duplicate. -/
lemma insert_detects : ∀ (t : Rbtree), SearchTree t →
    ∀ (a b : Nat) (nd x : RootInfo), x ∈ inorder t → key x = (a, b) →
    ((tree_insert t a b nd).2).isSome := by
  intro t
  induction t with
  | nil => intro _ a b nd x hx; simp [inorder] at hx
  | node l e r ihl ihr =>
    intro hst a b nd x hx hk
    simp only [SearchTree] at hst
    obtain ⟨hbl, hbr, hl, hr⟩ := hst
    simp only [tree_insert]
    split_ifs with h1 h2
    · have hlt : keyLt (key e) (a, b) := (comp_entry_neg_iff e _ _).mp h1
      simp only [inorder, List.mem_append, List.mem_cons] at hx
      rcases hx with hx | hx | hx
      · exact ihl hl a b nd x hx hk
      · subst hx; rw [hk] at hlt; exact absurd hlt (keyLt_irrefl _)
      · have := hbr x hx
        rw [hk] at this
        exact absurd hlt (keyLt_asymm this)
    · have hgt : keyLt (a, b) (key e) := (comp_entry_pos_iff e _ _).mp h2
      simp only [inorder, List.mem_append, List.mem_cons] at hx
      rcases hx with hx | hx | hx
      · have := hbl x hx
        rw [hk] at this
        exact absurd hgt (keyLt_asymm this)
      · subst hx; rw [hk] at hgt; exact absurd hgt (keyLt_irrefl _)
      · exact ihr hr a b nd x hx hk
    · simp

/-- If every matching record of a list equals `B` and `B` is a matching
member, the first match is `B`. -/
lemma head_filter_eq {L : List RootInfo} {p : RootInfo → Bool} {B : RootInfo}
    (hall : ∀ x ∈ L, p x = true → x = B) (hmem : B ∈ L) (hB : p B = true) :
    (L.filter p).head? = some B := by
  induction L with
  | nil => simp at hmem
  | cons a L ih =>
    by_cases hpa : p a = true
    · rw [List.filter_cons, if_pos hpa, List.head?_cons,
        hall a (List.mem_cons_self a L) hpa]
    · rw [List.filter_cons, if_neg (by simp [hpa])]
      refine ih (fun x hx hpx => hall x (List.mem_cons_of_mem a hx) hpx) ?_
      rcases List.mem_cons.mp hmem with h | h
      · subst h; exact absurd hB hpa
      · exact h

/-- The first components of the triples reported by the stitch loop are the
`root_id`s of the records in traversal order. -/
lemma stitch_go_firsts (rl : Rbtree) (fuel : Nat) :
    ∀ (L : List RootInfo) (out : List (Nat × Nat × String)),
      stitch_go rl fuel L = some out →
      out.map (fun x => x.1) = L.map (fun ri => ri.root_id) := by
  intro L
  induction L with
  | nil =>
    intro out h
    simp only [stitch_go, Option.some.injEq] at h
    subst h
    simp
  | cons ri rest ih =>
    intro out h
    simp only [stitch_go] at h
    cases h1 : (resolve_root rl ri fuel).2 with
    | none => rw [h1] at h; exact absurd h (by simp)
    | some pr =>
      obtain ⟨top, fp⟩ := pr
      rw [h1] at h
      cases h2 : stitch_go rl fuel rest with
      | none => rw [h2] at h; exact absurd h (by simp)
      | some out' =>
        rw [h2] at h
        obtain rfl : (ri.root_id, top, fp) :: out' = out := by injection h
        simp only [List.map_cons]
        rw [ih out' h2]

/-- The stitch loop threads the index through unchanged: the C body of
`resolve_root` only reads the tree. -/
lemma resolve_loop_fst (rl : Rbtree) :
    ∀ (fuel : Nat) (found : RootInfo) (acc : Option String),
      (resolve_loop rl fuel found acc).1 = rl := by
  intro fuel
  induction fuel with
  | zero => intro found acc; rfl
  | succ n ih =>
    intro found acc
    simp only [resolve_loop]
    cases hp : found.path with
    | none => rfl
    | some p =>
      split_ifs with h
      · rfl
      · cases hs : tree_search rl found.ref_tree with
        | none => rfl
        | some f => exact ih f _

/-- `lookup_ino_path` returns 0 on success and -1 on ioctl failure. -/
lemma lookup_ino_path_fst (f : Nat → Nat → Option String) (ri : RootInfo) :
    (lookup_ino_path f ri).1 = 0 ∨ (lookup_ino_path f ri).1 = -1 := by
  simp only [lookup_ino_path]
  cases hp : ri.path with
  | some p => simp
  | none =>
    cases hf : f ri.ref_tree ri.dir_id with
    | none => simp
    | some frag =>
      by_cases hfrag : frag = ""
      · simp [hfrag]
      · simp [hfrag]

/-- The only error the resolve phase can produce is -1, the return value of
a failed `BTRFS_IOC_INO_LOOKUP`. -/
lemma resolve_tree_error : ∀ (t : Rbtree) (f : Nat → Nat → Option String)
    (er : Int), resolve_tree f t = .error er → er = -1 := by
  intro t
  induction t with
  | nil => intro f er h; simp [resolve_tree] at h
  | node l nd r ihl ihr =>
    intro f er h
    simp only [resolve_tree] at h
    cases hl : resolve_tree f l with
    | error e2 =>
      simp only [hl] at h
      obtain rfl : e2 = er := by simpa using h
      exact ihl f e2 hl
    | ok l' =>
      simp only [hl] at h
      by_cases hneg : (lookup_ino_path f nd).1 < 0
      · rw [if_pos hneg] at h
        have heq : (lookup_ino_path f nd).1 = er := by simpa using h
        rcases lookup_ino_path_fst f nd with h0 | h0 <;> omega
      · rw [if_neg hneg] at h
        cases hr : resolve_tree f r with
        | error e3 =>
          simp only [hr] at h
          obtain rfl : e3 = er := by simpa using h
          exact ihr f e3 hr
        | ok r' => simp only [hr] at h; exact absurd h (by simp)

/-- One non-final iteration of the stitch loop starting with no accumulated
path: take the record's own path and continue at the parent found in the
index. -/
lemma resolve_loop_enter (rl : Rbtree) (fuel : Nat) (found : RootInfo)
    (p : String) (f : RootInfo) (hp : found.path = some p)
    (hne : found.ref_tree ≠ found.root_id)
    (hs : tree_search rl found.ref_tree = some f) :
    resolve_loop rl (fuel + 1) found none = resolve_loop rl fuel f (some p) := by
  simp only [resolve_loop, hp, hs, if_neg hne]

/-- One non-final iteration of the stitch loop with an accumulated path:
prepend the record's own path and continue at the parent found in the
index. -/
lemma resolve_loop_chain (rl : Rbtree) (fuel : Nat) (found : RootInfo)
    (acc0 p : String) (f : RootInfo) (hp : found.path = some p)
    (hne : found.ref_tree ≠ found.root_id)
    (hs : tree_search rl found.ref_tree = some f) :
    resolve_loop rl (fuel + 1) found (some acc0) =
      resolve_loop rl fuel f (some (p ++ "/" ++ acc0)) := by
  simp only [resolve_loop, hp, hs, if_neg hne]

/-- The final iteration of the stitch loop at a self-referential record
with an accumulated path. -/
lemma resolve_loop_exit_self (rl : Rbtree) (fuel : Nat) (found : RootInfo)
    (acc0 p : String) (hp : found.path = some p)
    (hself : found.ref_tree = found.root_id) :
    (resolve_loop rl (fuel + 1) found (some acc0)).2 =
      some (found.root_id, p ++ "/" ++ acc0) := by
  simp [resolve_loop, hp, hself]

/-- C1 (counterexample): on the index holding the records with subvol ids 5
and 7, the stitch phase reports the id-5 record first, so a reported
record's subvol id is NOT larger than the next one's: the triples are not
emitted in descending `subvol_id` order. -/
theorem c1_descending_counterexample :
    stitch_phase exT1 1 = some [(5, 5, "a"), (7, 7, "b")] ∧
    ¬ ((5 : Nat) > 7) :=
  ⟨by rfl, by decide⟩

/-- C1 (amended): because `tree_insert`/`tree_search` send larger keys to
the LEFT child, the `rb_last`/`rb_prev` stitch traversal runs in ascending
composite-key order: whenever the stitch phase completes, the reported
`(subvol_id, top_level_id, full_path)` triples have non-decreasing
`subvol_id`s. -/
theorem c1_report_ascending (rl : Rbtree) (fuel : Nat)
    (out : List (Nat × Nat × String)) (hst : SearchTree rl)
    (h : stitch_phase rl fuel = some out) :
    List.Pairwise (fun a b => a.1 ≤ b.1) out := by
  have hfst := stitch_go_firsts rl fuel ((inorder rl).reverse) out h
  have hs := sorted_inorder rl hst
  have hrev : ((inorder rl).reverse).Pairwise
      (fun a b => keyLt (key a) (key b)) := List.pairwise_reverse.mpr hs
  have hmap : (((inorder rl).reverse).map (fun ri => ri.root_id)).Pairwise
      (fun a b => a ≤ b) := by
    refine List.Pairwise.map _ ?_ hrev
    intro a b hab
    simp only [keyLt, key] at hab
    omega
  rw [← hfst] at hmap
  exact List.pairwise_map.mp hmap

/-- Witness for C1 (amended) on the two-record index. -/
theorem c1_report_ascending_witness :
    List.Pairwise (fun a b : Nat × Nat × String => a.1 ≤ b.1)
      [(5, 5, "a"), (7, 7, "b")] :=
  c1_report_ascending exT1 1 [(5, 5, "a"), (7, 7, "b")] (by decide) (by rfl)

/-- C2 (counterexample): with two records sharing `root_id` 256 (referring
roots 5 and 7), `tree_search` returns the one with ref tree 7, although a
tie with the strictly smaller ref tree 5 is present: `tree_search` does not
return the smallest `parent_root_id` among ties. -/
theorem c2_smallest_counterexample :
    tree_search exT2 256 = some rb ∧ ra ∈ inorder exT2 ∧
    ra.root_id = 256 ∧ ra.ref_tree < rb.ref_tree :=
  ⟨by rfl, by decide, by rfl, by decide⟩

/-- C2 (amended): on every well-formed index, when records with the given
`subvol_id` are present, `tree_search` returns one of them — the one with
the LARGEST `parent_root_id` among the ties (the `rb_prev` walk runs in the
descending in-order sequence). -/
theorem c2_search_largest_ref (t : Rbtree) (rid : Nat) (r : RootInfo)
    (hst : SearchTree t) (hr : r ∈ inorder t) (hrid : r.root_id = rid) :
    ∃ e, tree_search t rid = some e ∧ e.root_id = rid ∧ e ∈ inorder t ∧
      ∀ x ∈ inorder t, x.root_id = rid → x.ref_tree ≤ e.ref_tree := by
  have hchar := tree_search_eq t hst rid
  have hrM : r ∈ (inorder t).filter (fun x => x.root_id == rid) :=
    List.mem_filter.mpr ⟨hr, by simp [hrid]⟩
  cases hMe : (inorder t).filter (fun x => x.root_id == rid) with
  | nil => rw [hMe] at hrM; simp at hrM
  | cons e tail =>
    have heM : e ∈ (inorder t).filter (fun x => x.root_id == rid) := by
      rw [hMe]; exact List.mem_cons_self e tail
    have he := List.mem_filter.mp heM
    refine ⟨e, ?_, ?_, he.1, ?_⟩
    · rw [hchar, hMe]; rfl
    · simpa using he.2
    · intro x hx hxrid
      have hxM : x ∈ (inorder t).filter (fun x => x.root_id == rid) :=
        List.mem_filter.mpr ⟨hx, by simp [hxrid]⟩
      rw [hMe] at hxM
      rcases List.mem_cons.mp hxM with h | h
      · subst h; exact le_refl _
      · have hpw := (sorted_inorder t hst).filter (fun x => x.root_id == rid)
        rw [hMe] at hpw
        have hlt := (List.pairwise_cons.mp hpw).1 x h
        have he2 : e.root_id = rid := by simpa using he.2
        simp only [keyLt, key] at hlt
        omega

/-- Witness for C2 (amended) on the tied two-record index. -/
theorem c2_search_largest_ref_witness :
    ∃ e, tree_search exT2 256 = some e ∧ e.root_id = 256 ∧
      e ∈ inorder exT2 ∧
      ∀ x ∈ inorder exT2, x.root_id = 256 → x.ref_tree ≤ e.ref_tree :=
  c2_search_largest_ref exT2 256 ra (by decide) (by decide) (by rfl)

/-- C3 (failing input): delivering the two records with subvol id 256 in
batches of one record loses the second record — after the first batch the
cursor is advanced to `min_objectid = 257`, past the not-yet-delivered
`(256, 7)` — whereas one combined batch indexes both; batching does NOT
always produce the same index contents. -/
theorem c3_batched_gap :
    (build_phase fsC3 1 4).map (fun t => (inorder t).map key) =
      some [(256, 5)] ∧
    (build_phase fsC3 2 4).map (fun t => (inorder t).map key) =
      some [(256, 7), (256, 5)] ∧
    build_phase fsC3 1 4 ≠ build_phase fsC3 2 4 :=
  ⟨by rfl, by rfl, by decide⟩

/-- C4: after any sequence of insertions the index holds pairwise distinct
composite keys, and inserting a record whose exact composite key is present
is detected: `tree_insert` returns the existing entry (which carries that
key and is in the tree) and leaves the tree — hence every entry — entirely
unchanged. -/
theorem c4_unique_keys_insert (ops : List RootInfo) :
    List.Pairwise (fun a b => key a ≠ key b) (inorder (insert_all ops)) ∧
    ∀ nd : RootInfo, (∃ x ∈ inorder (insert_all ops), key x = key nd) →
      (tree_insert (insert_all ops) nd.root_id nd.ref_tree nd).1 =
        insert_all ops ∧
      ∃ e, (tree_insert (insert_all ops) nd.root_id nd.ref_tree nd).2 =
        some e ∧ key e = key nd ∧ e ∈ inorder (insert_all ops) := by
  have hst := searchTree_insert_all ops
  constructor
  · refine (sorted_inorder _ hst).imp ?_
    intro a b hab heq
    rw [heq] at hab
    exact keyLt_irrefl _ hab
  · rintro nd ⟨x, hx, hkey⟩
    have hsome := insert_detects (insert_all ops) hst nd.root_id nd.ref_tree
      nd x hx hkey
    obtain ⟨e, he⟩ := Option.isSome_iff_exists.mp hsome
    obtain ⟨h1, h2, h3⟩ := insert_snd_some _ _ _ _ _ he
    exact ⟨h1, e, he, h2, h3⟩

/-- Witness for C4: inserting a record with the already-present key
`(256, 5)` into the two-record index is rejected without change. -/
theorem c4_unique_keys_insert_witness :
    List.Pairwise (fun a b => key a ≠ key b) (inorder (insert_all [ra, rb])) ∧
    ((tree_insert (insert_all [ra, rb]) raDup.root_id raDup.ref_tree
        raDup).1 = insert_all [ra, rb] ∧
      ∃ e, (tree_insert (insert_all [ra, rb]) raDup.root_id raDup.ref_tree
        raDup).2 = some e ∧ key e = key raDup ∧
        e ∈ inorder (insert_all [ra, rb])) :=
  ⟨(c4_unique_keys_insert [ra, rb]).1,
    (c4_unique_keys_insert [ra, rb]).2 raDup ⟨ra, by decide, by decide⟩⟩

/-- C5: stitching the head of a three-level chain A→B→C held (exactly) by a
well-formed index produces `C.path ++ "/" ++ B.path ++ "/" ++ A.path` with
top level `C.root_id`. -/
theorem c5_three_level_chain (t : Rbtree) (A B C : RootInfo)
    (pa pb pc : String) (hst : SearchTree t)
    (honly : ∀ x ∈ inorder t, x = A ∨ x = B ∨ x = C)
    (hAmem : A ∈ inorder t) (hBmem : B ∈ inorder t) (hCmem : C ∈ inorder t)
    (hAB : A.root_id ≠ B.root_id) (hBC : B.root_id ≠ C.root_id)
    (hAC : A.root_id ≠ C.root_id)
    (hA : A.ref_tree = B.root_id) (hB : B.ref_tree = C.root_id)
    (hC : C.ref_tree = C.root_id)
    (hpa : A.path = some pa) (hpb : B.path = some pb)
    (hpc : C.path = some pc) :
    ∀ fuel, (resolve_root t A (fuel + 3)).2 =
      some (C.root_id, pc ++ "/" ++ pb ++ "/" ++ pa) := by
  have hsB : tree_search t A.ref_tree = some B := by
    rw [hA, tree_search_eq t hst B.root_id]
    refine head_filter_eq ?_ hBmem (by simp)
    intro x hx hpx
    simp only [beq_iff_eq] at hpx
    rcases honly x hx with rfl | rfl | rfl
    · exact absurd hpx hAB
    · rfl
    · exact absurd hpx.symm hBC
  have hsC : tree_search t B.ref_tree = some C := by
    rw [hB, tree_search_eq t hst C.root_id]
    refine head_filter_eq ?_ hCmem (by simp)
    intro x hx hpx
    simp only [beq_iff_eq] at hpx
    rcases honly x hx with rfl | rfl | rfl
    · exact absurd hpx hAC
    · exact absurd hpx hBC
    · rfl
  have h1 : A.ref_tree ≠ A.root_id := by
    rw [hA]; exact fun h => hAB h.symm
  have h2 : B.ref_tree ≠ B.root_id := by
    rw [hB]; exact fun h => hBC h.symm
  intro fuel
  show (resolve_loop t (fuel + 2 + 1) A none).2 = _
  rw [resolve_loop_enter t (fuel + 2) A pa B hpa h1 hsB]
  show (resolve_loop t (fuel + 1 + 1) B (some pa)).2 = _
  rw [resolve_loop_chain t (fuel + 1) B pa pb C hpb h2 hsC]
  show (resolve_loop t (fuel + 1) C (some (pb ++ "/" ++ pa))).2 = _
  rw [resolve_loop_exit_self t fuel C (pb ++ "/" ++ pa) pc hpc hC]
  simp [String.append_assoc]

/-- Witness for C5 on the concrete chain index. -/
theorem c5_three_level_chain_witness :
    (resolve_root exT5 chA (0 + 3)).2 =
      some (chC.root_id, "toplevel" ++ "/" ++ "snap1" ++ "/" ++ "nested") :=
  c5_three_level_chain exT5 chA chB chC "nested" "snap1" "toplevel"
    (by decide) (by decide) (by decide) (by decide) (by decide) (by decide)
    (by decide) (by decide) rfl rfl rfl rfl rfl rfl 0

/-- C6: resolving a record whose `path` is unset sets it to the record's
name when the ioctl returns an empty fragment, and to the fragment directly
followed by the name (no separator inserted) otherwise, returning 0. -/
theorem c6_local_path (f : Nat → Nat → Option String) (ri : RootInfo)
    (s : String) (hp : ri.path = none)
    (hf : f ri.ref_tree ri.dir_id = some s) :
    (lookup_ino_path f ri).1 = 0 ∧
    (lookup_ino_path f ri).2.path =
      some (if s = "" then ri.name else s ++ ri.name) := by
  simp only [lookup_ino_path, hp, hf]
  by_cases hs : s = ""
  · simp [hs]
  · simp [hs]

/-- Witness for C6: the always-empty oracle resolves `w6` to its bare
name. -/
theorem c6_local_path_witness :
    (lookup_ino_path emptyLookup w6).1 = 0 ∧
    (lookup_ino_path emptyLookup w6).2.path =
      some (if "" = "" then w6.name else "" ++ w6.name) :=
  c6_local_path emptyLookup w6 "" rfl rfl

/-- C7: stitching a resolved self-referential record stops in the very
first iteration — before any `tree_search` — with top level equal to its
own id and full path equal to its local path, whatever the index holds. -/
theorem c7_self_reference (rl : Rbtree) (fuel : Nat) (ri : RootInfo)
    (p : String) (hp : ri.path = some p)
    (hself : ri.ref_tree = ri.root_id) :
    (resolve_root rl ri (fuel + 1)).2 = some (ri.root_id, p) := by
  simp [resolve_root, resolve_loop, hp, hself]

/-- Witness for C7 on the empty index. -/
theorem c7_self_reference_witness :
    (resolve_root Rbtree.nil w5 (0 + 1)).2 = some (w5.root_id, "a") :=
  c7_self_reference Rbtree.nil 0 w5 "a" rfl rfl

/-- C8: when a record reached during stitching refers to a parent that is
neither itself nor present in the index, the loop stops with top level
equal to that unindexed parent id and the path accumulated so far (the
record's own local path when nothing was accumulated yet). -/
theorem c8_unindexed_parent (rl : Rbtree) (fuel : Nat) (found : RootInfo)
    (acc : Option String) (p : String) (hp : found.path = some p)
    (hne : found.ref_tree ≠ found.root_id)
    (hs : tree_search rl found.ref_tree = none) :
    (resolve_loop rl (fuel + 1) found acc).2 =
      some (found.ref_tree,
        match acc with
        | none => p
        | some fp => p ++ "/" ++ fp) := by
  cases acc with
  | none => simp [resolve_loop, hp, hs, if_neg hne]
  | some fp => simp [resolve_loop, hp, hs, if_neg hne]

/-- Witness for C8: a single record whose parent 4 is absent from the empty
index. -/
theorem c8_unindexed_parent_witness :
    (resolve_loop Rbtree.nil (0 + 1) w94 none).2 = some (w94.ref_tree, "x") :=
  c8_unindexed_parent Rbtree.nil 0 w94 none "x" rfl (by decide) rfl

/-- C9: if the resolve phase fails on some record, `list_subvols` returns
that (negative) error at once and reports no triple at all — the listing is
all-or-nothing. -/
theorem c9_all_or_nothing (fs : List EnumRec) (f : Nat → Nat → Option String)
    (cap bfuel sfuel : Nat) (rl : Rbtree) (e : Int)
    (hb : build_phase fs cap bfuel = some rl)
    (hr : resolve_tree f rl = .error e) :
    list_subvols fs f cap bfuel sfuel = some (e, []) ∧ e < 0 := by
  constructor
  · simp [list_subvols, hb, hr]
  · rw [resolve_tree_error rl f e hr]
    decide

/-- Witness for C9: a one-record filesystem with an always-failing ino
lookup. -/
theorem c9_all_or_nothing_witness :
    list_subvols fsC9 failLookup 4096 3 3 = some (-1, []) ∧ (-1 : Int) < 0 :=
  c9_all_or_nothing fsC9 failLookup 4096 3 3
    (.node .nil ⟨5, 5, 0, none, "top"⟩ .nil) (-1) (by rfl) (by rfl)

/-- C10: stitching never modifies the index: the tree coming out of
`resolve_root` is the very tree that went in, so every record and every
field of every record is unchanged. -/
theorem c10_stitch_frame (rl : Rbtree) (ri : RootInfo) (fuel : Nat) :
    (resolve_root rl ri fuel).1 = rl ∧
    inorder (resolve_root rl ri fuel).1 = inorder rl := by
  have h : (resolve_root rl ri fuel).1 = rl := resolve_loop_fst rl fuel ri none
  exact ⟨h, by rw [h]⟩

end BtrfsList
